import Mathlib

/-!
Verification of the zoc simulation core: the hex-grid pathfinder
(`src/core/pathfinder.rs`) and the command/event vocabulary
(`core/src/event.rs`), embedded shallowly.

Machine integers (Rust `ZInt` = `i32`) are embedded as `Int`; every value
occurring in the pathfinder stays far below 2^31, so wrap-around never
arises and the unbounded embedding is faithful.
-/

namespace Zoc
/-- Embeds `core::types::Size2<ZInt>`. -/
structure Size2 where
  w : Int
  h : Int
deriving DecidableEq

/-- Embeds `core::types::MapPos` (`pos.v.x` ↦ `x`, `pos.v.y` ↦ `y`). -/
structure MapPos where
  x : Int
  y : Int
deriving DecidableEq

/-- Modelled from the spec: the six hex-neighbour directions of `core::dir::Dir`
(the module `core/dir.rs` is not among the given sources; the spec fixes only
that each cell has exactly six neighbours). -/
inductive Dir where
  | east
  | southEast
  | southWest
  | west
  | northWest
  | northEast
deriving DecidableEq

/-- The six directions, in the order `fill_map` iterates over them. -/
def allDirs : List Dir :=
  [Dir.east, Dir.southEast, Dir.southWest, Dir.west, Dir.northWest, Dir.northEast]

/-- Modelled from the spec: `Dir::get_neighbour_pos` on an odd-r offset hex
grid (rows with odd `y` are shifted right half a cell). -/
def Dir.get_neighbour_pos (pos : MapPos) (dir : Dir) : MapPos :=
  let even := pos.y % 2 = 0
  match dir with
  | Dir.east => ⟨pos.x + 1, pos.y⟩
  | Dir.west => ⟨pos.x - 1, pos.y⟩
  | Dir.northEast => if even then ⟨pos.x, pos.y - 1⟩ else ⟨pos.x + 1, pos.y - 1⟩
  | Dir.northWest => if even then ⟨pos.x - 1, pos.y - 1⟩ else ⟨pos.x, pos.y - 1⟩
  | Dir.southEast => if even then ⟨pos.x, pos.y + 1⟩ else ⟨pos.x + 1, pos.y + 1⟩
  | Dir.southWest => if even then ⟨pos.x - 1, pos.y + 1⟩ else ⟨pos.x, pos.y + 1⟩

/-- The direction pointing back: `get_neighbour_pos` composed with the
opposite direction is the identity. -/
def Dir.opposite : Dir → Dir
  | Dir.east => Dir.west
  | Dir.west => Dir.east
  | Dir.northEast => Dir.southWest
  | Dir.southWest => Dir.northEast
  | Dir.northWest => Dir.southEast
  | Dir.southEast => Dir.northWest

/-- Modelled from the spec: `Dir::get_dir_from_to` — the direction leading
from `a` to the adjacent cell `b` (the source panics when the cells are not
adjacent; here the `Option` is `none` in that case, and the pathfinder always
calls it on adjacent cells). -/
def Dir.get_dir_from_to (a b : MapPos) : Option Dir :=
  allDirs.find? (fun d => decide (Dir.get_neighbour_pos a d = b))

/-- Two cells are hex-adjacent when one of the six directions leads from the
first to the second. -/
def adjacent (a b : MapPos) : Prop :=
  ∃ d : Dir, Dir.get_neighbour_pos a d = b

/-- Embeds `core::map::Tile`, the terrain kind of a grid cell. -/
inductive TerrainTile where
  | Plain
  | Trees
  | Building
deriving DecidableEq

/-- Embeds `core::core::UnitClass`. -/
inductive UnitClass where
  | Infantry
  | Vehicle
deriving DecidableEq

/-- Embeds `core::core::UnitTypeId`. -/
structure UnitTypeId where
  id : Int
deriving DecidableEq

/-- Modelled from the spec: the slice of `core::core::UnitType` the
pathfinder reads — only the unit class (`unit_type.class`). -/
structure UnitType where
  kind : UnitClass

/-- Modelled from the spec: the slice of `core::core::Core` the pathfinder
reads — the object-type table, `core.object_types.get_unit_type(type_id)`
becomes `core.object_types type_id`. -/
structure Core where
  object_types : UnitTypeId → UnitType

/-- Modelled from the spec: the slice of `core::core::Unit` the pathfinder
reads — its type id, position and movement budget. -/
structure Unit where
  type_id : UnitTypeId
  pos : MapPos
  move_points : Int
deriving DecidableEq

/-- Modelled from the spec: the terrain map inside the game state;
`state.map.tile(pos)` becomes `state.map.tile pos`. -/
structure TerrainMap where
  tile : MapPos → TerrainTile

/-- Modelled from the spec: the slice of `core::game_state::GameState` the
pathfinder reads — the terrain map and the unit-occupancy query
`units_at`. -/
structure GameState where
  map : TerrainMap
  units_at : MapPos → List Unit

/-! ## The pathfinder (`src/core/pathfinder.rs`) -/

/-- Embeds `MoveCost`. -/
structure MoveCost where
  n : Int
deriving DecidableEq

/-- Embeds `MapPath`: node list plus total cost. -/
structure MapPath where
  nodes : List (MoveCost × MapPos)
  total_cost : MoveCost
deriving DecidableEq

/-- Embeds the pathfinder-internal scratch `Tile`. -/
structure Tile where
  cost : MoveCost
  parent : Option Dir
deriving DecidableEq

/-- The out-of-range placeholder for `List.getD` in the total read
`Map.tile`. Every executable call site guards the read with `Map.validIdx`
(the source's panic condition), so the placeholder is never returned along
a modelled execution. -/
def defaultTile : Tile := ⟨⟨0⟩, none⟩

/-- Embeds the pathfinder-internal `Map`: the flat tile array plus size. -/
structure Map where
  size : Size2
  tiles : List Tile

/-- Embeds `max_cost()`, the "unreached" sentinel. -/
def max_cost : MoveCost := ⟨30000⟩

/-- The flat index `pos.v.x + pos.v.y * self.size.w` used by `Map::tile`
and `Map::tile_mut`. -/
def Map.tileIdx (m : Map) (pos : MapPos) : Int :=
  pos.x + pos.y * m.size.w

/-- The read of `Map::tile`, totalised with a placeholder. The source
panics on an out-of-range flat index; every executable call site
(`push_step`, `getPathLoop`) models that panic by guarding this read with
`Map.validIdx`, under which the placeholder is unreachable. -/
def Map.tile (m : Map) (pos : MapPos) : Tile :=
  m.tiles.getD (m.tileIdx pos).toNat defaultTile

/-- The write through `Map::tile_mut`, totalised. The source's
`expect("bad tile index")` panic is modelled by the `Map.validIdx` guard at
every executable call site (`push_step`, `push_start_pos_to_queue`), under
which the `List.set` is always in range. -/
def Map.set_tile (m : Map) (pos : MapPos) (t : Tile) : Map :=
  { m with tiles := m.tiles.set (m.tileIdx pos).toNat t }

/-- Embeds `Map::is_inboard`. -/
def Map.is_inboard (m : Map) (pos : MapPos) : Prop :=
  0 ≤ pos.x ∧ 0 ≤ pos.y ∧ pos.x < m.size.w ∧ pos.y < m.size.h

instance (m : Map) (pos : MapPos) : Decidable (m.is_inboard pos) := by
  unfold Map.is_inboard; infer_instance

/-- The flat index of `pos` is inside the tile array. `Map::tile` and
`Map::tile_mut` panic exactly when this fails (the `as usize` cast sends a
negative `ZInt` index out of range too, so validity is non-negativity plus
the length bound). -/
def Map.validIdx (m : Map) (pos : MapPos) : Prop :=
  0 ≤ m.tileIdx pos ∧ (m.tileIdx pos).toNat < m.tiles.length

instance (m : Map) (pos : MapPos) : Decidable (m.validIdx pos) := by
  unfold Map.validIdx; infer_instance

/-- Embeds `Pathfinder`: the work queue and the scratch map. -/
structure Pathfinder where
  queue : List MapPos
  map : Map

/-- Embeds `create_tiles` (every tile starts with cost 0 and no parent). -/
def create_tiles (tiles_count : Int) : List Tile :=
  List.replicate tiles_count.toNat ⟨⟨0⟩, none⟩

/-- Embeds `Pathfinder::new`. -/
def Pathfinder.new (map_size : Size2) : Pathfinder :=
  { queue := [],
    map := { size := map_size, tiles := create_tiles (map_size.w * map_size.h) } }

/-- Embeds `Pathfinder::tile_cost`: terrain movement cost of the entered
cell for the traversing unit's class. -/
def tile_cost (core : Core) (state : GameState) (unit : Unit) (pos : MapPos) : Int :=
  match (core.object_types unit.type_id).kind, state.map.tile pos with
  | UnitClass.Infantry, TerrainTile.Plain => 1
  | UnitClass.Infantry, TerrainTile.Trees => 2
  | UnitClass.Infantry, TerrainTile.Building => 2
  | UnitClass.Vehicle, TerrainTile.Plain => 1
  | UnitClass.Vehicle, TerrainTile.Trees => 5
  | UnitClass.Vehicle, TerrainTile.Building => 10

/-- Embeds `Pathfinder::process_neighbour_pos`: relax `neighbour_pos` from
`original_pos` when the new cost improves, the cell is unoccupied, and the
budget allows it. (`Some(Dir::get_dir_from_to(..))` collapses to the
`Option` result of the modelled `get_dir_from_to`, which is `some` on the
adjacent cells this is called with.) -/
def process_neighbour_pos (core : Core) (state : GameState) (unit : Unit)
    (original_pos neighbour_pos : MapPos) (pf : Pathfinder) : Pathfinder :=
  let old_cost := (pf.map.tile original_pos).cost
  let tc := tile_cost core state unit neighbour_pos
  let tile := pf.map.tile neighbour_pos
  let new_cost : MoveCost := ⟨old_cost.n + tc⟩
  let units_count := (state.units_at neighbour_pos).length
  if tile.cost.n > new_cost.n ∧ units_count = 0 ∧ new_cost.n ≤ unit.move_points then
    { queue := pf.queue ++ [neighbour_pos],
      map := pf.map.set_tile neighbour_pos
        ⟨new_cost, Dir.get_dir_from_to neighbour_pos original_pos⟩ }
  else
    pf

/-- Embeds `Pathfinder::clean_map`: reset every tile to the sentinel cost
and no parent. -/
def clean_map (pf : Pathfinder) : Pathfinder :=
  { pf with map := { pf.map with tiles := pf.map.tiles.map (fun _ => ⟨max_cost, none⟩) } }

/-- One iteration of the direction loop inside
`Pathfinder::try_to_push_neighbours`. `process_neighbour_pos` reads the
tile at `original_pos` and writes through `tile_mut` at `neighbour_pos`
before its guard, so the source panics there exactly when either flat
index is out of range: `none` models those panics, and on valid indices
the call is the total transformer. -/
def push_step (core : Core) (state : GameState) (unit : Unit)
    (pos : MapPos) (pf : Pathfinder) (dir : Dir) : Option Pathfinder :=
  let neighbour_pos := Dir.get_neighbour_pos pos dir
  if pf.map.is_inboard neighbour_pos then
    if pf.map.validIdx pos ∧ pf.map.validIdx neighbour_pos then
      some (process_neighbour_pos core state unit pos neighbour_pos pf)
    else none
  else some pf

/-- Embeds `Pathfinder::try_to_push_neighbours`: the entry
`assert!(self.map.is_inboard(&pos))` is modelled by `none`, then each
in-board neighbour of `pos` is relaxed in direction order. -/
def try_to_push_neighbours (core : Core) (state : GameState) (unit : Unit)
    (pos : MapPos) (pf : Pathfinder) : Option Pathfinder :=
  if pf.map.is_inboard pos then
    allDirs.foldl
      (fun acc dir => acc.bind (fun pf2 => push_step core state unit pos pf2 dir))
      (some pf)
  else none

/-- Embeds `Pathfinder::push_start_pos_to_queue`; the
`expect("bad tile index")` inside `tile_mut` is modelled by `none` on an
out-of-range flat index. -/
def push_start_pos_to_queue (start_pos : MapPos) (pf : Pathfinder) :
    Option Pathfinder :=
  if pf.map.validIdx start_pos then
    some { queue := pf.queue ++ [start_pos],
           map := pf.map.set_tile start_pos ⟨⟨0⟩, none⟩ }
  else none

/-- The `while self.queue.len() != 0` loop of `fill_map`, with explicit
fuel; panics inside an iteration propagate as `none`, and exhausted fuel is
also `none` (the termination theorem shows the fuel chosen in `fill_map`
always suffices, so the fuelled loop and the source loop agree). -/
def fillLoop (core : Core) (state : GameState) (unit : Unit) :
    Nat → Pathfinder → Option Pathfinder
  | 0, _ => none
  | fuel + 1, pf =>
    match pf.queue with
    | [] => some pf
    | pos :: rest =>
      (try_to_push_neighbours core state unit pos { pf with queue := rest }).bind
        (fillLoop core state unit fuel)

/-- Embeds `Pathfinder::fill_map`. The entry `assert!(self.queue.len() == 0)`
is modelled by returning `none` when the queue is non-empty, and any panic
inside the pass propagates as `none`. -/
def fill_map (core : Core) (state : GameState) (unit : Unit)
    (pf : Pathfinder) : Option Pathfinder :=
  if pf.queue.length = 0 then
    (push_start_pos_to_queue unit.pos (clean_map pf)).bind
      (fillLoop core state unit (60000 * pf.map.tiles.length + 1))
  else
    none

/-- The backward walk of `get_path`, with explicit fuel; the parent-chain
invariant shows the fuel chosen in `get_path` always suffices. An
out-of-range flat index at the tile read (`Map::tile` panic), a missing
parent (`unwrap` panic in the source) or an out-of-board step (failed
`assert!`) yields `none`. -/
def getPathLoop (m : Map) :
    Nat → MapPos → Int → List (MoveCost × MapPos) →
    Option (List (MoveCost × MapPos) × Int)
  | 0, _, _, _ => none
  | fuel + 1, pos, total, path =>
    if m.validIdx pos then
      if (m.tile pos).cost.n ≠ 0 then
        match (m.tile pos).parent with
        | none => none
        | some parent_dir =>
          let pos2 := Dir.get_neighbour_pos pos parent_dir
          if m.is_inboard pos2 then
            getPathLoop m fuel pos2 (total + 1) (path ++ [(⟨1⟩, pos2)])
          else none
      else
        some (path, total)
    else none

/-- Embeds `Pathfinder::get_path`. The entry `assert!` on the destination
being in-board, and the panics inside the walk, are modelled by `none`. -/
def get_path (pf : Pathfinder) (destination : MapPos) : Option MapPath :=
  if pf.map.is_inboard destination then
    match getPathLoop pf.map ((pf.map.tile destination).cost.n.toNat + 1)
        destination 0 [(⟨0⟩, destination)] with
    | some (path, total) => some ⟨path.reverse, ⟨total⟩⟩
    | none => none
  else
    none

/-! ## Tile-index lemmas -/

/-- Wellformedness of the scratch map: the tile array has exactly
`w * h` entries, as `Pathfinder::new` allocates. -/
def Map.wf (m : Map) : Prop :=
  m.tiles.length = (m.size.w * m.size.h).toNat

/-! ## Cost sums and the termination measure -/

/-- Total (clamped) cost mass of the scratch map. -/
def Map.sumCost (m : Map) : Nat :=
  (m.tiles.map (fun t => t.cost.n.toNat)).sum

/-- The loop variant of `fill_map`: twice the cost mass plus the queue
length. Popping costs 1; each push pays for itself because it strictly
lowers some tile's cost. -/
def pfMeasure (pf : Pathfinder) : Nat :=
  2 * pf.map.sumCost + pf.queue.length

/-! ## The full search invariant -/

/-- The invariant `fill_map` maintains on the scratch map: cost bounds,
budget respect, occupancy exclusion, uniqueness of the zero-cost origin,
and well-formed parent chains with strictly (by at least the entered
cell's terrain cost) decreasing recorded cost. -/
structure InvMap (core : Core) (state : GameState) (unit : Unit) (m : Map) : Prop where
  nonneg : ∀ t ∈ m.tiles, 0 ≤ t.cost.n
  le_sentinel : ∀ t ∈ m.tiles, t.cost.n ≤ 30000
  budget : ∀ t ∈ m.tiles, t.cost.n = 30000 ∨ t.cost.n ≤ unit.move_points
  sentinel_parent : ∀ t ∈ m.tiles, t.cost.n = 30000 → t.parent = none
  occupied : ∀ pos : MapPos, m.is_inboard pos → pos ≠ unit.pos →
    state.units_at pos ≠ [] → (m.tile pos).cost.n = 30000
  origin : (m.tile unit.pos).cost.n = 0
  zero_unique : ∀ pos : MapPos, m.is_inboard pos → (m.tile pos).cost.n = 0 →
    pos = unit.pos
  chain : ∀ pos : MapPos, m.is_inboard pos →
    0 < (m.tile pos).cost.n → (m.tile pos).cost.n < 30000 →
    ∃ d : Dir, (m.tile pos).parent = some d ∧
      m.is_inboard (Dir.get_neighbour_pos pos d) ∧
      (m.tile (Dir.get_neighbour_pos pos d)).cost.n
          + tile_cost core state unit pos
        ≤ (m.tile pos).cost.n

/-- The state predicate threaded through the work-queue loop. -/
def PfGood (core : Core) (state : GameState) (unit : Unit) (pf : Pathfinder) : Prop :=
  pf.map.wf ∧ pf.map.is_inboard unit.pos ∧ InvMap core state unit pf.map ∧
  ∀ q ∈ pf.queue, pf.map.is_inboard q

/-! ## Repeated fill passes -/

/-- One `fill_map` call's inputs: the read-only core, game state and unit. -/
structure FillCall where
  core : Core
  state : GameState
  unit : Unit

/-- Runs a sequence of `fill_map` calls on one pathfinder, propagating the
failure of any entry assertion. -/
def run_fills : List FillCall → Option Pathfinder → Option Pathfinder
  | [], acc => acc
  | c :: rest, acc =>
    run_fills rest (acc.bind (fun pf => fill_map c.core c.state c.unit pf))

/-! ## The command/event vocabulary (`core/src/event.rs`)

The payload leaf types live in sibling modules that are not among the given
sources; they are modelled from the spec as typed identifier and position
records. Only their existence matters for the vocabulary claims. -/

namespace event

/-- Modelled from the spec: `unit::UnitId`. -/
structure UnitId where
  id : Int
deriving DecidableEq

/-- Modelled from the spec: `unit::UnitTypeId`. -/
structure UnitTypeId where
  id : Int
deriving DecidableEq

/-- Modelled from the spec: `player::PlayerId`. -/
structure PlayerId where
  id : Int
deriving DecidableEq

/-- Modelled from the spec: `sector::SectorId`. -/
structure SectorId where
  id : Int
deriving DecidableEq

/-- Modelled from the spec: `object::ObjectId`. -/
structure ObjectId where
  id : Int
deriving DecidableEq

/-- Modelled from the spec: `position::ExactPos` — a map position refined
with an in-tile slot. -/
structure ExactPos where
  map_pos : MapPos
  slot_id : Int
deriving DecidableEq

/-- Modelled from the spec: `movement::MovePoints`. -/
structure MovePoints where
  n : Int
deriving DecidableEq

/-- Modelled from the spec: `unit::Unit`, the full unit record carried by
unit-revealing events; only its existence matters here. -/
structure Unit where
  id : UnitId
deriving DecidableEq

/-- Embeds `FireMode`. -/
inductive FireMode where
  | Active
  | Reactive
deriving DecidableEq

/-- Embeds `ReactionFireMode`. -/
inductive ReactionFireMode where
  | Normal
  | HoldFire
deriving DecidableEq

/-- Embeds `MoveMode`. -/
inductive MoveMode where
  | Fast
  | Hunt
deriving DecidableEq

/-- Embeds `Command`: the ten player/AI intents. -/
inductive Command where
  | Move (unit_id : UnitId) (path : List ExactPos) (mode : MoveMode)
  | EndTurn
  | CreateUnit (pos : ExactPos) (type_id : UnitTypeId)
  | AttackUnit (attacker_id : UnitId) (defender_id : UnitId)
  | LoadUnit (transporter_id : UnitId) (passenger_id : UnitId)
  | UnloadUnit (transporter_id : UnitId) (passenger_id : UnitId) (pos : ExactPos)
  | Attach (transporter_id : UnitId) (attached_unit_id : UnitId)
  | Detach (transporter_id : UnitId) (pos : ExactPos)
  | SetReactionFireMode (unit_id : UnitId) (mode : ReactionFireMode)
  | Smoke (unit_id : UnitId) (pos : MapPos)

/-- Embeds `AttackInfo` (field names as in the source, including the
`is_inderect` spelling). -/
structure AttackInfo where
  attacker_id : Option UnitId
  mode : FireMode
  is_ambush : Bool
  is_inderect : Bool
  defender_id : UnitId
  killed : Int
  suppression : Int
  leave_wrecks : Bool
deriving DecidableEq

/-- Embeds `Event`: the sixteen authoritative facts (`from`/`to` become
`from_`/`to_`). -/
inductive Event where
  | Move (unit_id : UnitId) (from_ : ExactPos) (to_ : ExactPos)
      (mode : MoveMode) (cost : MovePoints)
  | EndTurn (old_id : PlayerId) (new_id : PlayerId)
  | CreateUnit (unit_info : Unit)
  | AttackUnit (attack_info : AttackInfo)
  | Reveal (unit_info : Unit)
  | ShowUnit (unit_info : Unit)
  | HideUnit (unit_id : UnitId)
  | LoadUnit (transporter_id : Option UnitId) (passenger_id : UnitId)
      (from_ : ExactPos) (to_ : ExactPos)
  | UnloadUnit (unit_info : Unit) (transporter_id : Option UnitId)
      (from_ : ExactPos) (to_ : ExactPos)
  | Attach (transporter_id : UnitId) (attached_unit_id : UnitId)
      (from_ : ExactPos) (to_ : ExactPos)
  | Detach (transporter_id : UnitId) (from_ : ExactPos) (to_ : ExactPos)
  | SetReactionFireMode (unit_id : UnitId) (mode : ReactionFireMode)
  | SectorOwnerChanged (sector_id : SectorId) (new_owner_id : Option PlayerId)
  | VictoryPoint (player_id : PlayerId) (pos : MapPos) (count : Int)
  | Smoke (id : ObjectId) (pos : MapPos) (unit_id : Option UnitId)
  | RemoveSmoke (id : ObjectId)

/-- The variant tag of a `Command`. -/
def Command.name : Command → String
  | Command.Move _ _ _ => "Move"
  | Command.EndTurn => "EndTurn"
  | Command.CreateUnit _ _ => "CreateUnit"
  | Command.AttackUnit _ _ => "AttackUnit"
  | Command.LoadUnit _ _ => "LoadUnit"
  | Command.UnloadUnit _ _ _ => "UnloadUnit"
  | Command.Attach _ _ => "Attach"
  | Command.Detach _ _ => "Detach"
  | Command.SetReactionFireMode _ _ => "SetReactionFireMode"
  | Command.Smoke _ _ => "Smoke"

/-- The variant tag of an `Event`. -/
def Event.name : Event → String
  | Event.Move _ _ _ _ _ => "Move"
  | Event.EndTurn _ _ => "EndTurn"
  | Event.CreateUnit _ => "CreateUnit"
  | Event.AttackUnit _ => "AttackUnit"
  | Event.Reveal _ => "Reveal"
  | Event.ShowUnit _ => "ShowUnit"
  | Event.HideUnit _ => "HideUnit"
  | Event.LoadUnit _ _ _ _ => "LoadUnit"
  | Event.UnloadUnit _ _ _ _ => "UnloadUnit"
  | Event.Attach _ _ _ _ => "Attach"
  | Event.Detach _ _ _ => "Detach"
  | Event.SetReactionFireMode _ _ => "SetReactionFireMode"
  | Event.SectorOwnerChanged _ _ => "SectorOwnerChanged"
  | Event.VictoryPoint _ _ _ => "VictoryPoint"
  | Event.Smoke _ _ _ => "Smoke"
  | Event.RemoveSmoke _ => "RemoveSmoke"

/-- The ten command variant tags. -/
def commandNames : List String :=
  ["Move", "EndTurn", "CreateUnit", "AttackUnit", "LoadUnit", "UnloadUnit",
   "Attach", "Detach", "SetReactionFireMode", "Smoke"]

/-- The six engine-derived event variant tags that correspond to no
command. -/
def engineEventNames : List String :=
  ["Reveal", "ShowUnit", "HideUnit", "SectorOwnerChanged", "VictoryPoint",
   "RemoveSmoke"]

end event

/-! ## Concrete scenarios used to witness the theorems -/

/-- Object-type table: every type id is Infantry. -/
def exCore : Core := ⟨fun _ => ⟨UnitClass.Infantry⟩⟩

/-- An Infantry unit at the origin of a 2×1 grid with 10 move points. -/
def exUnit : Unit := ⟨⟨0⟩, ⟨0, 0⟩, 10⟩

/-- The cell (1,0) holds Trees (Infantry cost 2), everything else Plain;
no unit occupies any cell. -/
def exState : GameState :=
  ⟨⟨fun p => if p = ⟨1, 0⟩ then TerrainTile.Trees else TerrainTile.Plain⟩,
   fun _ => []⟩

/-- A fresh pathfinder for the 2×1 grid. -/
def exPf0 : Pathfinder := Pathfinder.new ⟨2, 1⟩

/-- The pathfinder after one fill pass for `exUnit`. -/
def exFill : Pathfinder := (fill_map exCore exState exUnit exPf0).getD exPf0

/-- The path to the Trees cell. -/
def exPath : MapPath := (get_path exFill ⟨1, 0⟩).getD ⟨[], ⟨0⟩⟩

/-- A second unit standing on the Trees cell, blocking it. -/
def exBlocker : Unit := ⟨⟨1⟩, ⟨1, 0⟩, 0⟩

/-- All-Plain terrain with the cell (1,0) occupied by `exBlocker`. -/
def exStateOcc : GameState :=
  ⟨⟨fun _ => TerrainTile.Plain⟩,
   fun p => if p = ⟨1, 0⟩ then [exBlocker] else []⟩

/-- The fill pass for `exUnit` against the occupied grid. -/
def exFillOcc : Pathfinder := (fill_map exCore exStateOcc exUnit exPf0).getD exPf0

/-- An Infantry unit with a single move point: the Trees cell (cost 2) is
out of budget. -/
def exUnitPoor : Unit := ⟨⟨0⟩, ⟨0, 0⟩, 1⟩

/-- The fill pass for the single-move-point unit: (1,0) stays at the
sentinel cost. -/
def exFillPoor : Pathfinder := (fill_map exCore exState exUnitPoor exPf0).getD exPf0

/-- A pathfinder of the same dimensions as `exPf0` but with stale scratch
data in its tiles. -/
def exPfJunk : Pathfinder :=
  ⟨[], ⟨⟨2, 1⟩, [⟨⟨5⟩, some Dir.east⟩, ⟨⟨7⟩, none⟩]⟩⟩

/-- Placeholder payload values used to exhibit event variants. -/
def exEventUnit : event.Unit := ⟨⟨0⟩⟩

def exExactPos : event.ExactPos := ⟨⟨0, 0⟩, 0⟩

def exAttackInfo : event.AttackInfo :=
  ⟨none, event.FireMode.Active, false, false, ⟨0⟩, 0, 0, false⟩

/-! ## Hex-geometry lemmas -/

theorem Dir.neigh_opposite (pos : MapPos) (d : Dir) :
    Dir.get_neighbour_pos (Dir.get_neighbour_pos pos d) d.opposite = pos := by
  obtain ⟨x, y⟩ := pos
  cases d <;> rcases Int.emod_two_eq_zero_or_one y with h | h
  all_goals
    simp [Dir.get_neighbour_pos, Dir.opposite, h,
      show (y - 1) % 2 = 1 - y % 2 from by omega,
      show (y + 1) % 2 = 1 - y % 2 from by omega,
      MapPos.mk.injEq]

theorem Dir.neigh_ne (pos : MapPos) (d : Dir) :
    Dir.get_neighbour_pos pos d ≠ pos := by
  obtain ⟨x, y⟩ := pos
  cases d <;> simp only [Dir.get_neighbour_pos]
  all_goals try split_ifs
  all_goals simp [MapPos.mk.injEq]

theorem get_dir_from_to_spec {a b : MapPos} {d : Dir}
    (h : Dir.get_dir_from_to a b = some d) :
    Dir.get_neighbour_pos a d = b := by
  have := List.find?_some h
  simpa using this

theorem get_dir_from_to_total {o n : MapPos} {d : Dir}
    (h : Dir.get_neighbour_pos o d = n) :
    ∃ d2, Dir.get_dir_from_to n o = some d2 ∧ Dir.get_neighbour_pos n d2 = o := by
  have hmem : Dir.opposite d ∈ allDirs := by cases d <;> simp [allDirs, Dir.opposite]
  have hp : Dir.get_neighbour_pos n (Dir.opposite d) = o := by
    rw [← h]; exact Dir.neigh_opposite o d
  rcases hfind : Dir.get_dir_from_to n o with _ | d2
  · exfalso
    have := List.find?_eq_none.mp hfind (Dir.opposite d) hmem
    simp [hp] at this
  · exact ⟨d2, rfl, by simpa using List.find?_some hfind⟩

theorem adjacent_symm {a b : MapPos} (h : adjacent a b) : adjacent b a := by
  obtain ⟨d, hd⟩ := h
  exact ⟨d.opposite, by rw [← hd]; exact Dir.neigh_opposite a d⟩

theorem tileIdx_bounds {m : Map} {pos : MapPos} (h : m.is_inboard pos) :
    0 ≤ m.tileIdx pos ∧ m.tileIdx pos < m.size.w * m.size.h := by
  obtain ⟨hx0, hy0, hxw, hyh⟩ := h
  have hw0 : (0 : Int) ≤ m.size.w := le_trans hx0 (le_of_lt hxw)
  have hyw : 0 ≤ pos.y * m.size.w := mul_nonneg hy0 hw0
  constructor
  · unfold Map.tileIdx; omega
  · have h1 : m.tileIdx pos < (pos.y + 1) * m.size.w := by
      unfold Map.tileIdx; rw [add_mul, one_mul]; omega
    have h2 : (pos.y + 1) * m.size.w ≤ m.size.h * m.size.w :=
      mul_le_mul_of_nonneg_right (by omega) hw0
    calc m.tileIdx pos < (pos.y + 1) * m.size.w := h1
      _ ≤ m.size.h * m.size.w := h2
      _ = m.size.w * m.size.h := mul_comm _ _

theorem tileIdx_toNat_lt {m : Map} (hwf : m.wf) {pos : MapPos}
    (h : m.is_inboard pos) : (m.tileIdx pos).toNat < m.tiles.length := by
  obtain ⟨h0, h1⟩ := tileIdx_bounds h
  rw [hwf]
  omega

theorem tileIdx_inj {m : Map} {p q : MapPos}
    (hp : m.is_inboard p) (hq : m.is_inboard q)
    (h : m.tileIdx p = m.tileIdx q) : p = q := by
  obtain ⟨hpx, hpy, hpw, hph⟩ := hp
  obtain ⟨hqx, hqy, hqw, hqh⟩ := hq
  have hw0 : (0 : Int) ≤ m.size.w := le_trans hpx (le_of_lt hpw)
  unfold Map.tileIdx at h
  have hy : p.y = q.y := by
    rcases lt_trichotomy p.y q.y with hlt | heq | hlt
    · exfalso
      have h1 : (p.y + 1) * m.size.w ≤ q.y * m.size.w :=
        mul_le_mul_of_nonneg_right (by omega) hw0
      rw [add_mul, one_mul] at h1
      linarith
    · exact heq
    · exfalso
      have h1 : (q.y + 1) * m.size.w ≤ p.y * m.size.w :=
        mul_le_mul_of_nonneg_right (by omega) hw0
      rw [add_mul, one_mul] at h1
      linarith
  have hx : p.x = q.x := by
    rw [hy] at h
    exact add_right_cancel h
  obtain ⟨px, py⟩ := p
  obtain ⟨qx, qy⟩ := q
  simp_all

theorem tileIdx_toNat_inj {m : Map} {p q : MapPos}
    (hp : m.is_inboard p) (hq : m.is_inboard q)
    (h : (m.tileIdx p).toNat = (m.tileIdx q).toNat) : p = q := by
  have h1 := (tileIdx_bounds hp).1
  have h2 := (tileIdx_bounds hq).1
  exact tileIdx_inj hp hq (by omega)

/-! ## Reading and writing tiles -/

theorem Map.set_tile_size (m : Map) (q : MapPos) (t : Tile) :
    (m.set_tile q t).size = m.size := rfl

theorem Map.set_tile_len (m : Map) (q : MapPos) (t : Tile) :
    (m.set_tile q t).tiles.length = m.tiles.length := by
  simp [Map.set_tile]

theorem Map.is_inboard_set_tile (m : Map) (p q : MapPos) (t : Tile) :
    (m.set_tile q t).is_inboard p ↔ m.is_inboard p := Iff.rfl

theorem Map.tileIdx_set_tile (m : Map) (p q : MapPos) (t : Tile) :
    (m.set_tile q t).tileIdx p = m.tileIdx p := rfl

theorem Map.wf_set_tile {m : Map} (hwf : m.wf) (q : MapPos) (t : Tile) :
    (m.set_tile q t).wf := by
  unfold Map.wf at hwf ⊢
  simpa [Map.set_tile] using hwf

theorem Map.tile_mem {m : Map} (hwf : m.wf) {pos : MapPos}
    (h : m.is_inboard pos) : m.tile pos ∈ m.tiles := by
  have hlt := tileIdx_toNat_lt hwf h
  unfold Map.tile
  rw [List.getD_eq_getElem?_getD, List.getElem?_eq_getElem hlt]
  exact List.getElem_mem hlt

theorem Map.tile_set_self {m : Map} {pos : MapPos} {t : Tile}
    (h : (m.tileIdx pos).toNat < m.tiles.length) :
    (m.set_tile pos t).tile pos = t := by
  unfold Map.tile
  rw [Map.tileIdx_set_tile]
  show (m.tiles.set (m.tileIdx pos).toNat t).getD (m.tileIdx pos).toNat defaultTile = t
  rw [List.getD_eq_getElem?_getD, List.getElem?_set_self (by simpa using h)]
  rfl

theorem Map.tile_set_ne {m : Map} {p q : MapPos} {t : Tile}
    (h : (m.tileIdx q).toNat ≠ (m.tileIdx p).toNat) :
    (m.set_tile q t).tile p = m.tile p := by
  unfold Map.tile
  rw [Map.tileIdx_set_tile]
  show (m.tiles.set (m.tileIdx q).toNat t).getD (m.tileIdx p).toNat defaultTile
    = m.tiles.getD (m.tileIdx p).toNat defaultTile
  rw [List.getD_eq_getElem?_getD, List.getD_eq_getElem?_getD,
    List.getElem?_set_ne h]

theorem sum_map_set (f : Tile → Nat) (l : List Tile) :
    ∀ (i : Nat) (t : Tile), i < l.length →
      ((l.set i t).map f).sum + f (l.getD i defaultTile)
        = (l.map f).sum + f t := by
  induction l with
  | nil => intro i t h; simp at h
  | cons a l ih =>
    intro i t h
    cases i with
    | zero =>
      simp only [List.set_cons_zero, List.map_cons, List.sum_cons, List.getD_cons_zero]
      omega
    | succ i =>
      simp only [List.set_cons_succ, List.map_cons, List.sum_cons, List.getD_cons_succ]
      have := ih i t (by simpa using h)
      omega

theorem Map.sumCost_set {m : Map} {pos : MapPos} {t : Tile}
    (h : (m.tileIdx pos).toNat < m.tiles.length) :
    (m.set_tile pos t).sumCost + (m.tile pos).cost.n.toNat
      = m.sumCost + t.cost.n.toNat := by
  unfold Map.sumCost Map.set_tile Map.tile
  exact sum_map_set _ m.tiles (m.tileIdx pos).toNat t h

/-! ## Basic facts about the cost model and tile reads -/

theorem tile_cost_pos (core : Core) (state : GameState) (unit : Unit)
    (pos : MapPos) : 1 ≤ tile_cost core state unit pos := by
  unfold tile_cost
  split <;> norm_num

theorem tile_nonneg {m : Map} (h : ∀ t ∈ m.tiles, 0 ≤ t.cost.n)
    (pos : MapPos) : 0 ≤ (m.tile pos).cost.n := by
  unfold Map.tile
  rw [List.getD_eq_getElem?_getD]
  rcases h2 : m.tiles[(m.tileIdx pos).toNat]? with _ | t
  · simp [defaultTile]
  · obtain ⟨hlt, rfl⟩ := List.getElem?_eq_some.mp h2
    simpa using h _ (List.getElem_mem hlt)

/-! ## Preservation through one relaxation -/

theorem process_size (core : Core) (state : GameState) (unit : Unit)
    (o n : MapPos) (pf : Pathfinder) :
    (process_neighbour_pos core state unit o n pf).map.size = pf.map.size := by
  simp only [process_neighbour_pos]
  split <;> rfl

theorem process_len (core : Core) (state : GameState) (unit : Unit)
    (o n : MapPos) (pf : Pathfinder) :
    (process_neighbour_pos core state unit o n pf).map.tiles.length
      = pf.map.tiles.length := by
  simp only [process_neighbour_pos]
  split
  · simp [Map.set_tile]
  · rfl

theorem process_preserves (core : Core) (state : GameState) (unit : Unit)
    {o n : MapPos} {pf : Pathfinder}
    (hwf : pf.map.wf)
    (hup : pf.map.is_inboard unit.pos)
    (hinv : InvMap core state unit pf.map)
    (hqin : ∀ q ∈ pf.queue, pf.map.is_inboard q)
    (ho : pf.map.is_inboard o) (hn : pf.map.is_inboard n)
    (hadj : ∃ d : Dir, Dir.get_neighbour_pos o d = n) :
    PfGood core state unit (process_neighbour_pos core state unit o n pf) ∧
    pfMeasure (process_neighbour_pos core state unit o n pf) ≤ pfMeasure pf := by
  have hlt_n := tileIdx_toNat_lt hwf hn
  have hmem_n := Map.tile_mem hwf hn
  have hmem_o := Map.tile_mem hwf ho
  have h_old_nonneg : 0 ≤ (pf.map.tile o).cost.n := hinv.nonneg _ hmem_o
  have h_tc := tile_cost_pos core state unit n
  have h_n_le : (pf.map.tile n).cost.n ≤ 30000 := hinv.le_sentinel _ hmem_n
  simp only [process_neighbour_pos]
  split
  case isFalse hcond =>
    exact ⟨⟨hwf, hup, hinv, hqin⟩, le_refl _⟩
  case isTrue hcond =>
    obtain ⟨hgt, hunits, hbud⟩ := hcond
    set nc : Int := (pf.map.tile o).cost.n + tile_cost core state unit n with hnc
    set t_new : Tile := ⟨⟨nc⟩, Dir.get_dir_from_to n o⟩ with ht_new
    have h_nc_pos : 0 < nc := by omega
    have h_nc_lt : nc < (pf.map.tile n).cost.n := hgt
    have h_nc_lt30 : nc < 30000 := by omega
    have h_n_ne_up : n ≠ unit.pos := by
      intro h
      rw [h, hinv.origin] at hgt
      omega
    have h_o_ne_n : o ≠ n := by
      obtain ⟨d, hd⟩ := hadj
      intro h
      exact Dir.neigh_ne o d (by rw [hd, ← h])
    have hread : ∀ p : MapPos, pf.map.is_inboard p → p ≠ n →
        (pf.map.set_tile n t_new).tile p = pf.map.tile p := by
      intro p hp hne
      exact Map.tile_set_ne (fun h => hne (tileIdx_toNat_inj hn hp h).symm)
    have hread_n : (pf.map.set_tile n t_new).tile n = t_new :=
      Map.tile_set_self hlt_n
    have hmemset : ∀ t, t ∈ (pf.map.set_tile n t_new).tiles →
        t ∈ pf.map.tiles ∨ t = t_new := by
      intro t ht
      exact List.mem_or_eq_of_mem_set ht
    refine ⟨⟨Map.wf_set_tile hwf _ _, hup, ?_, ?_⟩, ?_⟩
    · constructor
      · intro t ht
        rcases hmemset t ht with h | rfl
        · exact hinv.nonneg t h
        · show 0 ≤ nc; omega
      · intro t ht
        rcases hmemset t ht with h | rfl
        · exact hinv.le_sentinel t h
        · show nc ≤ 30000; omega
      · intro t ht
        rcases hmemset t ht with h | rfl
        · exact hinv.budget t h
        · exact Or.inr hbud
      · intro t ht hc
        rcases hmemset t ht with h | rfl
        · exact hinv.sentinel_parent t h hc
        · exact absurd hc (by show ¬nc = 30000; omega)
      · intro p hp hpu hocc
        rw [Map.is_inboard_set_tile] at hp
        by_cases hpn : p = n
        · rw [hpn] at hocc
          exact absurd (List.length_eq_zero.mp hunits) hocc
        · rw [hread p hp hpn]
          exact hinv.occupied p hp hpu hocc
      · rw [hread unit.pos hup (Ne.symm h_n_ne_up)]
        exact hinv.origin
      · intro p hp hc
        rw [Map.is_inboard_set_tile] at hp
        by_cases hpn : p = n
        · rw [hpn, hread_n] at hc
          have hc2 : nc = 0 := hc
          exact absurd hc2 (by omega)
        · rw [hread p hp hpn] at hc
          exact hinv.zero_unique p hp hc
      · intro p hp hc0 hc30
        rw [Map.is_inboard_set_tile] at hp
        by_cases hpn : p = n
        · rw [hpn]
          obtain ⟨d0, hd0⟩ := hadj
          obtain ⟨d2, hfind, hback⟩ := get_dir_from_to_total hd0
          refine ⟨d2, ?_, ?_, ?_⟩
          · rw [hread_n]; show Dir.get_dir_from_to n o = some d2; exact hfind
          · rw [Map.is_inboard_set_tile, hback]; exact ho
          · rw [hread_n, hback, hread o ho h_o_ne_n]
        · obtain ⟨d, hpar, hinb, hle⟩ := hinv.chain p hp
            (by rwa [hread p hp hpn] at hc0) (by rwa [hread p hp hpn] at hc30)
          refine ⟨d, ?_, ?_, ?_⟩
          · rw [hread p hp hpn]; exact hpar
          · rw [Map.is_inboard_set_tile]; exact hinb
          · rw [hread p hp hpn]
            by_cases hqn : Dir.get_neighbour_pos p d = n
            · rw [hqn, hread_n]
              rw [hqn] at hle
              show nc + tile_cost core state unit p ≤ (pf.map.tile p).cost.n
              linarith
            · rw [hread _ hinb hqn]
              exact hle
    · intro q hq
      rw [Map.is_inboard_set_tile]
      show pf.map.is_inboard q
      rcases List.mem_append.mp hq with h | h
      · exact hqin q h
      · rw [List.mem_singleton.mp h]; exact hn
    · have hsum := @Map.sumCost_set pf.map n t_new hlt_n
      unfold pfMeasure
      simp only [List.length_append, List.length_singleton]
      have h1 : t_new.cost.n.toNat + 1 ≤ (pf.map.tile n).cost.n.toNat := by
        show nc.toNat + 1 ≤ (pf.map.tile n).cost.n.toNat
        omega
      omega

/-! ## The weaker invariant used for unconditional termination -/

theorem process_wf (core : Core) (state : GameState) (unit : Unit)
    (o n : MapPos) (pf : Pathfinder) (hwf : pf.map.wf) :
    (process_neighbour_pos core state unit o n pf).map.wf := by
  unfold Map.wf at hwf ⊢
  rw [process_len, process_size]
  exact hwf

theorem process_nonneg (core : Core) (state : GameState) (unit : Unit)
    {o n : MapPos} {pf : Pathfinder}
    (hwf : pf.map.wf)
    (hnn : ∀ t ∈ pf.map.tiles, 0 ≤ t.cost.n)
    (hn : pf.map.is_inboard n) :
    (∀ t ∈ (process_neighbour_pos core state unit o n pf).map.tiles, 0 ≤ t.cost.n) ∧
    pfMeasure (process_neighbour_pos core state unit o n pf) ≤ pfMeasure pf := by
  have hlt_n := tileIdx_toNat_lt hwf hn
  have h_old := tile_nonneg hnn o
  have h_n := tile_nonneg hnn n
  have h_tc := tile_cost_pos core state unit n
  simp only [process_neighbour_pos]
  split
  case isFalse => exact ⟨hnn, le_refl _⟩
  case isTrue hcond =>
    obtain ⟨hgt, hunits, hbud⟩ := hcond
    set nc : Int := (pf.map.tile o).cost.n + tile_cost core state unit n with hnc
    set t_new : Tile := ⟨⟨nc⟩, Dir.get_dir_from_to n o⟩ with ht_new
    constructor
    · intro t ht
      rcases List.mem_or_eq_of_mem_set ht with h | rfl
      · exact hnn t h
      · show 0 ≤ nc; omega
    · have hsum := @Map.sumCost_set pf.map n t_new hlt_n
      unfold pfMeasure
      simp only [List.length_append, List.length_singleton]
      have h1 : t_new.cost.n.toNat + 1 ≤ (pf.map.tile n).cost.n.toNat := by
        show nc.toNat + 1 ≤ (pf.map.tile n).cost.n.toNat
        omega
      omega

/-! ## One direction step, and the fold over the six directions -/

theorem is_inboard_congr {m1 m2 : Map} (h : m1.size = m2.size) (p : MapPos) :
    m1.is_inboard p ↔ m2.is_inboard p := by
  unfold Map.is_inboard
  rw [h]

theorem validIdx_of_inboard {m : Map} (hwf : m.wf) {pos : MapPos}
    (h : m.is_inboard pos) : m.validIdx pos :=
  ⟨(tileIdx_bounds h).1, tileIdx_toNat_lt hwf h⟩

theorem process_queue_mem (core : Core) (state : GameState) (unit : Unit)
    (o n : MapPos) (pf : Pathfinder) :
    ∀ q ∈ (process_neighbour_pos core state unit o n pf).queue,
      q ∈ pf.queue ∨ q = n := by
  intro q hq
  simp only [process_neighbour_pos] at hq
  split at hq
  · rcases List.mem_append.mp hq with h | h
    · exact Or.inl h
    · exact Or.inr (List.mem_singleton.mp h)
  · exact Or.inl hq

theorem push_step_good (core : Core) (state : GameState) (unit : Unit)
    {pos : MapPos} {pf : Pathfinder} (dir : Dir)
    (hg : PfGood core state unit pf) (hpos : pf.map.is_inboard pos) :
    ∃ pf2, push_step core state unit pos pf dir = some pf2 ∧
      PfGood core state unit pf2 ∧
      pfMeasure pf2 ≤ pfMeasure pf ∧
      pf2.map.size = pf.map.size := by
  obtain ⟨hwf, hup, hinv, hqin⟩ := hg
  simp only [push_step]
  by_cases hn : pf.map.is_inboard (Dir.get_neighbour_pos pos dir)
  · rw [if_pos hn,
      if_pos ⟨validIdx_of_inboard hwf hpos, validIdx_of_inboard hwf hn⟩]
    obtain ⟨hg2, hμ⟩ :=
      process_preserves core state unit hwf hup hinv hqin hpos hn ⟨dir, rfl⟩
    exact ⟨_, rfl, hg2, hμ, process_size core state unit pos _ pf⟩
  · rw [if_neg hn]
    exact ⟨pf, rfl, ⟨hwf, hup, hinv, hqin⟩, le_refl _, rfl⟩

theorem push_step_nonneg (core : Core) (state : GameState) (unit : Unit)
    {pos : MapPos} {pf : Pathfinder} (dir : Dir)
    (hwf : pf.map.wf) (hnn : ∀ t ∈ pf.map.tiles, 0 ≤ t.cost.n)
    (hqin : ∀ q ∈ pf.queue, pf.map.is_inboard q)
    (hpos : pf.map.is_inboard pos) :
    ∃ pf2, push_step core state unit pos pf dir = some pf2 ∧
      pf2.map.wf ∧ (∀ t ∈ pf2.map.tiles, 0 ≤ t.cost.n) ∧
      (∀ q ∈ pf2.queue, pf2.map.is_inboard q) ∧
      pfMeasure pf2 ≤ pfMeasure pf ∧
      pf2.map.size = pf.map.size := by
  simp only [push_step]
  by_cases hn : pf.map.is_inboard (Dir.get_neighbour_pos pos dir)
  · rw [if_pos hn,
      if_pos ⟨validIdx_of_inboard hwf hpos, validIdx_of_inboard hwf hn⟩]
    obtain ⟨hnn2, hμ⟩ := process_nonneg core state unit hwf hnn hn
    have hsz := process_size core state unit pos (Dir.get_neighbour_pos pos dir) pf
    refine ⟨_, rfl, process_wf core state unit pos _ pf hwf, hnn2, ?_, hμ, hsz⟩
    intro q hq
    rcases process_queue_mem core state unit pos _ pf q hq with h | h
    · exact (is_inboard_congr hsz q).mpr (hqin q h)
    · rw [h]
      exact (is_inboard_congr hsz _).mpr hn
  · rw [if_neg hn]
    exact ⟨pf, rfl, hwf, hnn, hqin, le_refl _, rfl⟩

theorem foldl_push_good (core : Core) (state : GameState) (unit : Unit)
    (pos : MapPos) :
    ∀ (dirs : List Dir) (pf : Pathfinder),
      PfGood core state unit pf → pf.map.is_inboard pos →
      ∃ pf2,
        dirs.foldl
          (fun acc dir => acc.bind (fun p2 => push_step core state unit pos p2 dir))
          (some pf) = some pf2 ∧
        PfGood core state unit pf2 ∧
        pfMeasure pf2 ≤ pfMeasure pf ∧
        pf2.map.size = pf.map.size := by
  intro dirs
  induction dirs with
  | nil => intro pf hg _; exact ⟨pf, rfl, hg, le_refl _, rfl⟩
  | cons d dirs ih =>
    intro pf hg hpos
    obtain ⟨pfm, heq, hgm, hμm, hszm⟩ := push_step_good core state unit d hg hpos
    obtain ⟨pf2, heq2, hg2, hμ2, hsz2⟩ :=
      ih pfm hgm ((is_inboard_congr hszm pos).mpr hpos)
    refine ⟨pf2, ?_, hg2, le_trans hμ2 hμm, hsz2.trans hszm⟩
    simp only [List.foldl_cons]
    rw [show ((some pf).bind (fun p2 => push_step core state unit pos p2 d))
        = some pfm from heq]
    exact heq2

theorem foldl_push_nonneg (core : Core) (state : GameState) (unit : Unit)
    (pos : MapPos) :
    ∀ (dirs : List Dir) (pf : Pathfinder),
      pf.map.wf → (∀ t ∈ pf.map.tiles, 0 ≤ t.cost.n) →
      (∀ q ∈ pf.queue, pf.map.is_inboard q) →
      pf.map.is_inboard pos →
      ∃ pf2,
        dirs.foldl
          (fun acc dir => acc.bind (fun p2 => push_step core state unit pos p2 dir))
          (some pf) = some pf2 ∧
        pf2.map.wf ∧ (∀ t ∈ pf2.map.tiles, 0 ≤ t.cost.n) ∧
        (∀ q ∈ pf2.queue, pf2.map.is_inboard q) ∧
        pfMeasure pf2 ≤ pfMeasure pf ∧
        pf2.map.size = pf.map.size := by
  intro dirs
  induction dirs with
  | nil => intro pf hwf hnn hqin _; exact ⟨pf, rfl, hwf, hnn, hqin, le_refl _, rfl⟩
  | cons d dirs ih =>
    intro pf hwf hnn hqin hpos
    obtain ⟨pfm, heq, hwfm, hnnm, hqinm, hμm, hszm⟩ :=
      push_step_nonneg core state unit d hwf hnn hqin hpos
    obtain ⟨pf2, heq2, hwf2, hnn2, hqin2, hμ2, hsz2⟩ :=
      ih pfm hwfm hnnm hqinm ((is_inboard_congr hszm pos).mpr hpos)
    refine ⟨pf2, ?_, hwf2, hnn2, hqin2, le_trans hμ2 hμm, hsz2.trans hszm⟩
    simp only [List.foldl_cons]
    rw [show ((some pf).bind (fun p2 => push_step core state unit pos p2 d))
        = some pfm from heq]
    exact heq2

/-! ## The work-queue loop -/

theorem pop_step_good (core : Core) (state : GameState) (unit : Unit)
    {pos : MapPos} {rest : List MapPos} {pf : Pathfinder}
    (hg : PfGood core state unit pf) (hq : pf.queue = pos :: rest) :
    ∃ pf2,
      try_to_push_neighbours core state unit pos { pf with queue := rest }
        = some pf2 ∧
      PfGood core state unit pf2 ∧
      pfMeasure pf2 < pfMeasure pf ∧
      pf2.map.size = pf.map.size := by
  obtain ⟨hwf, hup, hinv, hqin⟩ := hg
  have hpos : pf.map.is_inboard pos :=
    hqin pos (by rw [hq]; exact List.mem_cons_self _ _)
  have hg2 : PfGood core state unit { pf with queue := rest } :=
    ⟨hwf, hup, hinv, fun q hqm => hqin q (by rw [hq]; exact List.mem_cons_of_mem _ hqm)⟩
  unfold try_to_push_neighbours
  rw [if_pos (show ({ pf with queue := rest } : Pathfinder).map.is_inboard pos
    from hpos)]
  obtain ⟨pf2, heq, hg3, hμ, hsz⟩ :=
    foldl_push_good core state unit pos allDirs _ hg2 hpos
  refine ⟨pf2, heq, hg3, lt_of_le_of_lt hμ ?_, hsz⟩
  unfold pfMeasure
  simp [hq]

theorem pop_step_nonneg (core : Core) (state : GameState) (unit : Unit)
    {pos : MapPos} {rest : List MapPos} {pf : Pathfinder}
    (hg : pf.map.wf ∧ (∀ t ∈ pf.map.tiles, 0 ≤ t.cost.n) ∧
      ∀ q ∈ pf.queue, pf.map.is_inboard q)
    (hq : pf.queue = pos :: rest) :
    ∃ pf2,
      try_to_push_neighbours core state unit pos { pf with queue := rest }
        = some pf2 ∧
      (pf2.map.wf ∧ (∀ t ∈ pf2.map.tiles, 0 ≤ t.cost.n) ∧
        ∀ q ∈ pf2.queue, pf2.map.is_inboard q) ∧
      pfMeasure pf2 < pfMeasure pf ∧
      pf2.map.size = pf.map.size := by
  obtain ⟨hwf, hnn, hqin⟩ := hg
  have hpos : pf.map.is_inboard pos :=
    hqin pos (by rw [hq]; exact List.mem_cons_self _ _)
  have hqin2 : ∀ q ∈ rest, pf.map.is_inboard q :=
    fun q hqm => hqin q (by rw [hq]; exact List.mem_cons_of_mem _ hqm)
  unfold try_to_push_neighbours
  rw [if_pos (show ({ pf with queue := rest } : Pathfinder).map.is_inboard pos
    from hpos)]
  obtain ⟨pf2, heq, hwf2, hnn2, hqin3, hμ, hsz⟩ :=
    foldl_push_nonneg core state unit pos allDirs { pf with queue := rest }
      hwf hnn hqin2 hpos
  refine ⟨pf2, heq, ⟨hwf2, hnn2, hqin3⟩, lt_of_le_of_lt hμ ?_, hsz⟩
  unfold pfMeasure
  simp [hq]

theorem fillLoop_generic (core : Core) (state : GameState) (unit : Unit)
    (P : Pathfinder → Prop)
    (hstep : ∀ (pos : MapPos) (rest : List MapPos) (pf : Pathfinder),
      P pf → pf.queue = pos :: rest →
      ∃ pf2,
        try_to_push_neighbours core state unit pos { pf with queue := rest }
          = some pf2 ∧
        P pf2 ∧ pfMeasure pf2 < pfMeasure pf) :
    ∀ (fuel : Nat) (pf : Pathfinder), P pf → pfMeasure pf < fuel →
      ∃ pf2, fillLoop core state unit fuel pf = some pf2 ∧
        pf2.queue = [] ∧ P pf2 := by
  intro fuel
  induction fuel with
  | zero => intro pf _ hm; omega
  | succ fuel ih =>
    intro pf hP hm
    rcases hq : pf.queue with _ | ⟨pos, rest⟩
    · refine ⟨pf, ?_, hq, hP⟩
      simp [fillLoop, hq]
    · obtain ⟨pfm, heq, hPm, hμm⟩ := hstep pos rest pf hP hq
      obtain ⟨pf2, heq2, hq2, hP2⟩ := ih pfm hPm (by omega)
      refine ⟨pf2, ?_, hq2, hP2⟩
      simp only [fillLoop, hq]
      rw [heq]
      exact heq2


/-! ## The initial state of a fill pass -/

theorem clean_map_tiles (pf : Pathfinder) :
    (clean_map pf).map.tiles
      = List.replicate pf.map.tiles.length ⟨max_cost, none⟩ := by
  unfold clean_map
  exact List.map_const' _ _

theorem clean_wf {pf : Pathfinder} (hwf : pf.map.wf) : (clean_map pf).map.wf := by
  unfold Map.wf at hwf ⊢
  rw [clean_map_tiles]
  simpa using hwf

theorem clean_tile {pf : Pathfinder} (hwf : pf.map.wf) {p : MapPos}
    (hp : pf.map.is_inboard p) :
    (clean_map pf).map.tile p = ⟨max_cost, none⟩ := by
  have hlt : ((clean_map pf).map.tileIdx p).toNat < pf.map.tiles.length :=
    tileIdx_toNat_lt hwf hp
  unfold Map.tile
  rw [clean_map_tiles, List.getD_eq_getElem?_getD, List.getElem?_replicate]
  simp [hlt]

theorem clean_sumCost (pf : Pathfinder) :
    (clean_map pf).map.sumCost = 30000 * pf.map.tiles.length := by
  unfold Map.sumCost
  rw [clean_map_tiles, List.map_replicate]
  simp [List.sum_replicate, max_cost, mul_comm]

theorem sumCost_set_zero_le (m : Map) (p : MapPos) :
    (m.set_tile p ⟨⟨0⟩, none⟩).sumCost ≤ m.sumCost := by
  by_cases h : (m.tileIdx p).toNat < m.tiles.length
  · have := @Map.sumCost_set m p ⟨⟨0⟩, none⟩ h
    simp only [Int.toNat_zero] at this
    omega
  · unfold Map.sumCost Map.set_tile
    rw [List.set_eq_of_length_le (by omega)]

theorem start_nonneg (unit : Unit) {pf : Pathfinder}
    (hwf : pf.map.wf) (hup : pf.map.is_inboard unit.pos) (hq : pf.queue = []) :
    ∃ st, push_start_pos_to_queue unit.pos (clean_map pf) = some st ∧
      st.map.wf ∧ (∀ t ∈ st.map.tiles, 0 ≤ t.cost.n) ∧
      (∀ q ∈ st.queue, st.map.is_inboard q) ∧
      st.map.size = pf.map.size ∧
      pfMeasure st < 60000 * pf.map.tiles.length + 1 := by
  have hwf1 : (clean_map pf).map.wf := clean_wf hwf
  have hup1 : (clean_map pf).map.is_inboard unit.pos := hup
  have hv : (clean_map pf).map.validIdx unit.pos := validIdx_of_inboard hwf1 hup1
  unfold push_start_pos_to_queue
  rw [if_pos hv]
  refine ⟨_, rfl, Map.wf_set_tile hwf1 _ _, ?_, ?_, rfl, ?_⟩
  · intro t ht
    rcases List.mem_or_eq_of_mem_set ht with h | rfl
    · rw [clean_map_tiles] at h
      rw [List.eq_of_mem_replicate h]
      norm_num [max_cost]
    · norm_num
  · intro q hqm
    have : q = unit.pos := by
      rw [show (clean_map pf).queue = [] from hq] at hqm
      simpa using hqm
    rw [this]
    exact hup
  · have hsum := @Map.sumCost_set (clean_map pf).map unit.pos ⟨⟨0⟩, none⟩ hv.2
    rw [clean_tile hwf hup, clean_sumCost] at hsum
    norm_num [max_cost] at hsum
    show 2 * ((clean_map pf).map.set_tile unit.pos ⟨⟨0⟩, none⟩).sumCost
        + ((clean_map pf).queue ++ [unit.pos]).length
      < 60000 * pf.map.tiles.length + 1
    rw [show (clean_map pf).queue = [] from hq]
    simp only [List.nil_append, List.length_singleton]
    omega

theorem start_good (core : Core) (state : GameState) (unit : Unit)
    {pf : Pathfinder}
    (hwf : pf.map.wf) (hup : pf.map.is_inboard unit.pos)
    (hmp : 0 ≤ unit.move_points) (hq : pf.queue = []) :
    ∃ st, push_start_pos_to_queue unit.pos (clean_map pf) = some st ∧
      PfGood core state unit st ∧
      st.map.size = pf.map.size ∧
      pfMeasure st < 60000 * pf.map.tiles.length + 1 := by
  have hwf1 : (clean_map pf).map.wf := clean_wf hwf
  have hup1 : (clean_map pf).map.is_inboard unit.pos := hup
  have hv : (clean_map pf).map.validIdx unit.pos := validIdx_of_inboard hwf1 hup1
  have hlt : (((clean_map pf).map).tileIdx unit.pos).toNat
      < (clean_map pf).map.tiles.length := hv.2
  have hself : ((clean_map pf).map.set_tile unit.pos ⟨⟨0⟩, none⟩).tile unit.pos
      = ⟨⟨0⟩, none⟩ := Map.tile_set_self hlt
  have hother : ∀ p : MapPos, pf.map.is_inboard p → p ≠ unit.pos →
      ((clean_map pf).map.set_tile unit.pos ⟨⟨0⟩, none⟩).tile p
        = ⟨max_cost, none⟩ := by
    intro p hp hne
    rw [Map.tile_set_ne (fun h =>
      hne (@tileIdx_toNat_inj (clean_map pf).map unit.pos p hup1 hp h).symm)]
    exact clean_tile hwf hp
  unfold push_start_pos_to_queue
  rw [if_pos hv]
  refine ⟨_, rfl, ⟨Map.wf_set_tile hwf1 _ _, hup, ?_, ?_⟩, rfl, ?_⟩
  · show InvMap core state unit ((clean_map pf).map.set_tile unit.pos ⟨⟨0⟩, none⟩)
    constructor
    · intro t ht
      rcases List.mem_or_eq_of_mem_set ht with h | rfl
      · rw [clean_map_tiles] at h
        rw [List.eq_of_mem_replicate h]
        norm_num [max_cost]
      · norm_num
    · intro t ht
      rcases List.mem_or_eq_of_mem_set ht with h | rfl
      · rw [clean_map_tiles] at h
        rw [List.eq_of_mem_replicate h]
        norm_num [max_cost]
      · norm_num
    · intro t ht
      rcases List.mem_or_eq_of_mem_set ht with h | rfl
      · rw [clean_map_tiles] at h
        rw [List.eq_of_mem_replicate h]
        norm_num [max_cost]
      · exact Or.inr (by norm_num; exact hmp)
    · intro t ht hc
      rcases List.mem_or_eq_of_mem_set ht with h | rfl
      · rw [clean_map_tiles] at h
        rw [List.eq_of_mem_replicate h]
      · norm_num at hc
    · intro p hp hne _
      rw [hother p hp hne]
      rfl
    · rw [hself]
    · intro p hp hzero
      by_cases hne : p = unit.pos
      · exact hne
      · rw [hother p hp hne] at hzero
        norm_num [max_cost] at hzero
    · intro p hp hc0 hc30
      by_cases hne : p = unit.pos
      · rw [hne, hself] at hc0
        norm_num at hc0
      · rw [hother p hp hne] at hc30
        norm_num [max_cost] at hc30
  · intro q hqm
    have : q = unit.pos := by
      rw [show (clean_map pf).queue = [] from hq] at hqm
      simpa using hqm
    rw [this]
    exact hup
  · have hsum := @Map.sumCost_set (clean_map pf).map unit.pos ⟨⟨0⟩, none⟩ hv.2
    rw [clean_tile hwf hup, clean_sumCost] at hsum
    norm_num [max_cost] at hsum
    show 2 * ((clean_map pf).map.set_tile unit.pos ⟨⟨0⟩, none⟩).sumCost
        + ((clean_map pf).queue ++ [unit.pos]).length
      < 60000 * pf.map.tiles.length + 1
    rw [show (clean_map pf).queue = [] from hq]
    simp only [List.nil_append, List.length_singleton]
    omega

/-! ## Master lemmas: every fill pass succeeds, empties its queue, and
establishes the search invariant -/

theorem fill_map_total (core : Core) (state : GameState) (unit : Unit)
    {pf : Pathfinder} (hwf : pf.map.wf) (hup : pf.map.is_inboard unit.pos)
    (hq : pf.queue = []) :
    ∃ pf2, fill_map core state unit pf = some pf2 ∧ pf2.queue = [] ∧
      pf2.map.size = pf.map.size ∧ pf2.map.wf := by
  obtain ⟨st, hst, hwf0, hnn0, hqin0, hsz0, hμ0⟩ := start_nonneg unit hwf hup hq
  obtain ⟨pf2, h2, hq2, hP2⟩ := fillLoop_generic core state unit
    (fun p => (p.map.wf ∧ (∀ t ∈ p.map.tiles, 0 ≤ t.cost.n) ∧
      ∀ q ∈ p.queue, p.map.is_inboard q) ∧ p.map.size = pf.map.size)
    (fun pos rest p hP hqq => by
      obtain ⟨hW, hszp⟩ := hP
      obtain ⟨pf2, heq, hW2, hμ, hsz⟩ := pop_step_nonneg core state unit hW hqq
      exact ⟨pf2, heq, ⟨hW2, hsz.trans hszp⟩, hμ⟩)
    (60000 * pf.map.tiles.length + 1) st ⟨⟨hwf0, hnn0, hqin0⟩, hsz0⟩ hμ0
  refine ⟨pf2, ?_, hq2, hP2.2, hP2.1.1⟩
  unfold fill_map
  rw [if_pos (by rw [hq]; rfl), hst]
  exact h2

theorem fill_map_spec (core : Core) (state : GameState) (unit : Unit)
    {pf : Pathfinder}
    (hwf : pf.map.wf) (hup : pf.map.is_inboard unit.pos)
    (hmp : 0 ≤ unit.move_points) (hq : pf.queue = []) :
    ∃ pf2, fill_map core state unit pf = some pf2 ∧
      pf2.queue = [] ∧ pf2.map.size = pf.map.size ∧ pf2.map.wf ∧
      InvMap core state unit pf2.map := by
  obtain ⟨st, hst, hg, hsz0, hμ0⟩ := start_good core state unit hwf hup hmp hq
  obtain ⟨pf2, h2, hq2, hP2⟩ := fillLoop_generic core state unit
    (fun p => PfGood core state unit p ∧ p.map.size = pf.map.size)
    (fun pos rest p hP hqq => by
      obtain ⟨hgp, hszp⟩ := hP
      obtain ⟨pf2, heq, hg2, hμ, hsz⟩ := pop_step_good core state unit hgp hqq
      exact ⟨pf2, heq, ⟨hg2, hsz.trans hszp⟩, hμ⟩)
    (60000 * pf.map.tiles.length + 1) st ⟨hg, hsz0⟩ hμ0
  obtain ⟨⟨hwf2, _, hinv2, _⟩, hsz2⟩ := hP2
  refine ⟨pf2, ?_, hq2, hsz2, hwf2, hinv2⟩
  unfold fill_map
  rw [if_pos (by rw [hq]; rfl), hst]
  exact h2

/-! ## The backward walk of `get_path` -/

theorem getPathLoop_total (m : Map) :
    ∀ (fuel : Nat) (pos : MapPos) (total : Int) (path : List (MoveCost × MapPos))
      (res : List (MoveCost × MapPos) × Int),
      getPathLoop m fuel pos total path = some res →
      res.2 + path.length = total + res.1.length := by
  intro fuel
  induction fuel with
  | zero => intro pos total path res h; simp [getPathLoop] at h
  | succ fuel ih =>
    intro pos total path res h
    simp only [getPathLoop] at h
    by_cases hv : m.validIdx pos
    · rw [if_pos hv] at h
      by_cases h0 : (m.tile pos).cost.n ≠ 0
      · rw [if_pos h0] at h
        rcases hpar : (m.tile pos).parent with _ | d
        · rw [hpar] at h; simp at h
        · rw [hpar] at h
          simp only at h
          by_cases hin : m.is_inboard (Dir.get_neighbour_pos pos d)
          · rw [if_pos hin] at h
            have := ih _ _ _ _ h
            simp only [List.length_append, List.length_singleton] at this
            push_cast at this ⊢
            omega
          · rw [if_neg hin] at h; simp at h
      · rw [if_neg h0] at h
        obtain rfl := Option.some.inj h
        simp
    · rw [if_neg hv] at h
      simp at h

theorem getPathLoop_spec (core : Core) (state : GameState) (unit : Unit)
    {m : Map} (hwf : m.wf) (hinv : InvMap core state unit m) :
    ∀ (fuel : Nat) (pos : MapPos) (total : Int) (path : List (MoveCost × MapPos)),
      m.is_inboard pos → (m.tile pos).cost.n < 30000 →
      (m.tile pos).cost.n.toNat < fuel →
      ∃ (tail : List (MoveCost × MapPos)) (t : Int),
        getPathLoop m fuel pos total path = some (path ++ tail, t) ∧
        t = total + tail.length ∧
        List.Chain' adjacent (pos :: tail.map Prod.snd) ∧
        (∀ q ∈ pos :: tail.map Prod.snd, m.is_inboard q) ∧
        (m.tile ((tail.map Prod.snd).getLastD pos)).cost.n = 0 := by
  intro fuel
  induction fuel with
  | zero => intro pos total path _ _ hf; omega
  | succ fuel ih =>
    intro pos total path hpos hlt30 hf
    have hvp : m.validIdx pos := validIdx_of_inboard hwf hpos
    by_cases h0 : (m.tile pos).cost.n = 0
    · refine ⟨[], total, ?_, by simp, ?_, ?_, by simpa using h0⟩
      · simp [getPathLoop, h0, hvp]
      · simp [List.chain'_singleton]
      · intro q hq
        simp at hq
        rw [hq]
        exact hpos
    · have hnn : 0 ≤ (m.tile pos).cost.n := tile_nonneg hinv.nonneg pos
      have hpos0 : 0 < (m.tile pos).cost.n := lt_of_le_of_ne hnn (Ne.symm h0)
      obtain ⟨d, hpar, hinb, hle⟩ := hinv.chain pos hpos hpos0 hlt30
      have h_tc := tile_cost_pos core state unit pos
      have hnn2 : 0 ≤ (m.tile (Dir.get_neighbour_pos pos d)).cost.n :=
        tile_nonneg hinv.nonneg _
      have hlt2 : (m.tile (Dir.get_neighbour_pos pos d)).cost.n
          < (m.tile pos).cost.n := by omega
      have hstep : getPathLoop m (fuel + 1) pos total path
          = getPathLoop m fuel (Dir.get_neighbour_pos pos d) (total + 1)
            (path ++ [(⟨1⟩, Dir.get_neighbour_pos pos d)]) := by
        simp only [getPathLoop]
        rw [if_pos hvp, if_pos h0]
        simp only [hpar]
        rw [if_pos hinb]
      obtain ⟨tail2, t2, heq, ht2, hchain2, hinb2, hlast2⟩ :=
        ih (Dir.get_neighbour_pos pos d) (total + 1)
          (path ++ [(⟨1⟩, Dir.get_neighbour_pos pos d)]) hinb
          (by omega) (by omega)
      refine ⟨(⟨1⟩, Dir.get_neighbour_pos pos d) :: tail2, t2, ?_, ?_, ?_, ?_, ?_⟩
      · rw [hstep, heq]
        simp
      · rw [ht2]
        simp only [List.length_cons]
        push_cast
        ring
      · simp only [List.map_cons]
        exact List.chain'_cons.mpr ⟨⟨d, rfl⟩, hchain2⟩
      · intro q hq
        simp only [List.map_cons, List.mem_cons] at hq
        rcases hq with rfl | hq
        · exact hpos
        · exact hinb2 q (by simpa using hq)
      · simp only [List.map_cons, List.getLastD_cons]
        exact hlast2

theorem getLast?_cons_getLastD {α : Type} :
    ∀ (l : List α) (a : α), (a :: l).getLast? = some (l.getLastD a)
  | [], _ => rfl
  | b :: l, a => by
    rw [List.getLastD_cons, List.getLast?_cons_cons]
    exact getLast?_cons_getLastD l b

theorem getLastD_mem {α : Type} :
    ∀ (l : List α) (a : α), l.getLastD a ∈ a :: l
  | [], _ => by simp
  | b :: l, a => by
    rw [List.getLastD_cons]
    have := getLastD_mem l b
    simp at this ⊢
    tauto

theorem get_path_spec (core : Core) (state : GameState) (unit : Unit)
    {pf : Pathfinder} (hwf : pf.map.wf) (hinv : InvMap core state unit pf.map)
    {dest : MapPos} (hdest : pf.map.is_inboard dest)
    (hreach : (pf.map.tile dest).cost.n < 30000) :
    ∃ mp : MapPath, get_path pf dest = some mp ∧
      mp.nodes ≠ [] ∧
      (mp.nodes.map Prod.snd).head? = some unit.pos ∧
      (mp.nodes.map Prod.snd).getLast? = some dest ∧
      List.Chain' adjacent (mp.nodes.map Prod.snd) ∧
      mp.total_cost.n = mp.nodes.length - 1 := by
  obtain ⟨tail, t, heq, ht, hchain, hinbs, hlast⟩ :=
    getPathLoop_spec core state unit hwf hinv
      ((pf.map.tile dest).cost.n.toNat + 1) dest 0 [(⟨0⟩, dest)]
      hdest hreach (by omega)
  have horigin : (tail.map Prod.snd).getLastD dest = unit.pos := by
    refine hinv.zero_unique _ ?_ hlast
    exact hinbs _ (getLastD_mem _ _)
  refine ⟨⟨([((⟨0⟩ : MoveCost), dest)] ++ tail).reverse, ⟨t⟩⟩, ?_, ?_, ?_, ?_, ?_, ?_⟩
  · unfold get_path
    rw [if_pos hdest, heq]
  · simp
  · show ((([((⟨0⟩ : MoveCost), dest)] ++ tail).reverse).map Prod.snd).head? = some unit.pos
    rw [List.map_reverse, List.head?_reverse]
    simp only [List.map_append, List.map_cons, List.map_nil, List.singleton_append]
    rw [getLast?_cons_getLastD, horigin]
  · show ((([((⟨0⟩ : MoveCost), dest)] ++ tail).reverse).map Prod.snd).getLast? = some dest
    rw [List.map_reverse, List.getLast?_reverse]
    simp
  · show List.Chain' adjacent ((([((⟨0⟩ : MoveCost), dest)] ++ tail).reverse).map Prod.snd)
    rw [List.map_reverse]
    refine List.chain'_reverse.mpr ?_
    simp only [List.map_append, List.map_cons, List.map_nil, List.singleton_append]
    exact List.Chain'.imp (fun a b h => adjacent_symm h) hchain
  · show t = ((([((⟨0⟩ : MoveCost), dest)] ++ tail).reverse).length : Int) - 1
    simp only [List.length_reverse, List.length_append, List.length_singleton]
    rw [ht]
    push_cast
    ring

/-- A destination whose cost is still the sentinel has no parent pointer, so
the walk hits the `unwrap` immediately. -/
theorem get_path_unreached (core : Core) (state : GameState) (unit : Unit)
    {pf : Pathfinder} (hwf : pf.map.wf) (hinv : InvMap core state unit pf.map)
    {dest : MapPos} (hdest : pf.map.is_inboard dest)
    (hcost : (pf.map.tile dest).cost.n = 30000) :
    get_path pf dest = none := by
  have hpar : (pf.map.tile dest).parent = none :=
    hinv.sentinel_parent _ (Map.tile_mem hwf hdest) hcost
  unfold get_path
  rw [if_pos hdest]
  have hloop : getPathLoop pf.map ((pf.map.tile dest).cost.n.toNat + 1)
      dest 0 [(⟨0⟩, dest)] = none := by
    simp only [getPathLoop]
    rw [if_pos (validIdx_of_inboard hwf hdest),
      if_pos (by rw [hcost]; norm_num), hpar]
  rw [hloop]

/-- An out-of-board destination fails the entry assertion of `get_path`. -/
theorem get_path_outboard {pf : Pathfinder} {dest : MapPos}
    (hdest : ¬ pf.map.is_inboard dest) : get_path pf dest = none := by
  unfold get_path
  rw [if_neg hdest]

/-! ## Determinism: a fill pass erases all prior scratch state -/

theorem fill_map_congr (core : Core) (state : GameState) (unit : Unit)
    {pf1 pf2 : Pathfinder}
    (hsz : pf1.map.size = pf2.map.size)
    (hlen : pf1.map.tiles.length = pf2.map.tiles.length)
    (hq1 : pf1.queue = []) (hq2 : pf2.queue = []) :
    fill_map core state unit pf1 = fill_map core state unit pf2 := by
  have hclean : clean_map pf1 = clean_map pf2 := by
    obtain ⟨q1, s1, t1⟩ := pf1
    obtain ⟨q2, s2, t2⟩ := pf2
    dsimp only at hsz hlen hq1 hq2
    simp [clean_map, List.map_const', Pathfinder.mk.injEq, Map.mk.injEq,
      hsz, hlen, hq1, hq2]
  unfold fill_map
  rw [if_pos (by rw [hq1]; rfl), if_pos (by rw [hq2]; rfl), hclean, hlen]

theorem new_wf (map_size : Size2) : (Pathfinder.new map_size).map.wf := by
  unfold Pathfinder.new Map.wf create_tiles
  simp

theorem run_fills_total :
    ∀ (calls : List FillCall) (pf : Pathfinder), pf.map.wf → pf.queue = [] →
      (∀ c ∈ calls, pf.map.is_inboard c.unit.pos) →
      ∃ pf2, run_fills calls (some pf) = some pf2 ∧ pf2.queue = [] ∧
        pf2.map.wf ∧ pf2.map.size = pf.map.size := by
  intro calls
  induction calls with
  | nil => intro pf hwf hq _; exact ⟨pf, rfl, hq, hwf, rfl⟩
  | cons c rest ih =>
    intro pf hwf hq hin
    obtain ⟨pfA, hfA, hqA, hszA, hwfA⟩ :=
      fill_map_total c.core c.state c.unit hwf (hin c (List.mem_cons_self _ _)) hq
    obtain ⟨pf2, h2, hq2, hwf2, hsz2⟩ := ih pfA hwfA hqA
      (fun c2 hc2 => (is_inboard_congr hszA _).mpr (hin c2 (List.mem_cons_of_mem _ hc2)))
    refine ⟨pf2, ?_, hq2, hwf2, hsz2.trans hszA⟩
    show run_fills rest (fill_map c.core c.state c.unit pf) = some pf2
    rw [hfA]
    exact h2

/-! ## The claims -/

/-- Claim C1, counterexample: on a 2×1 grid whose second cell is Trees
(Infantry cost 2), the fill pass records cost 2 at (1,0), but the returned
path's `total_cost` is 1 — the recorded cost and the path's total cost
differ, refuting the claim as stated. -/
theorem C1_counterexample :
    fill_map exCore exState exUnit exPf0 = some exFill ∧
    (exFill.map.tile ⟨1, 0⟩).cost.n = 2 ∧
    get_path exFill ⟨1, 0⟩ = some exPath ∧
    exPath.total_cost.n = 1 ∧
    exPath.total_cost.n ≠ (exFill.map.tile ⟨1, 0⟩).cost.n :=
  ⟨rfl, rfl, rfl, rfl, by decide⟩

/-- Claim C1 (amended): the `total_cost` of every `MapPath` returned by
`get_path` equals the number of steps of the path — the node count minus
one, accumulating the unit cost of 1 per step that the reconstruction
records — not the cost recorded in the destination's tile. -/
theorem C1_amended_total_cost {pf : Pathfinder} {dest : MapPos} {mp : MapPath}
    (h : get_path pf dest = some mp) :
    mp.total_cost.n = mp.nodes.length - 1 := by
  unfold get_path at h
  by_cases hin : pf.map.is_inboard dest
  · rw [if_pos hin] at h
    rcases hloop : getPathLoop pf.map ((pf.map.tile dest).cost.n.toNat + 1)
        dest 0 [(⟨0⟩, dest)] with _ | res
    · rw [hloop] at h
      exact absurd h (by simp)
    · rw [hloop] at h
      obtain ⟨path2, t2⟩ := res
      have h2 : some (⟨path2.reverse, ⟨t2⟩⟩ : MapPath) = some mp := h
      obtain rfl := Option.some.inj h2
      have htot := getPathLoop_total pf.map _ _ _ _ _ hloop
      simp only [List.length_cons, List.length_nil] at htot
      show t2 = (path2.reverse.length : Int) - 1
      simp only [List.length_reverse]
      push_cast at htot ⊢
      omega
  · rw [if_neg hin] at h
    exact absurd h (by simp)

/-- Claim C1, witness: the amended statement at the concrete scenario. -/
theorem C1_witness : exPath.total_cost.n = exPath.nodes.length - 1 :=
  C1_amended_total_cost (show get_path exFill ⟨1, 0⟩ = some exPath from rfl)

/-- Claim C2: after a fill pass, every in-board cell either keeps the
sentinel cost 30000 or records a cost within the unit's movement budget. -/
theorem C2_budget_respect (core : Core) (state : GameState) (unit : Unit)
    {pf pf2 : Pathfinder}
    (hwf : pf.map.wf) (hup : pf.map.is_inboard unit.pos)
    (hmp : 0 ≤ unit.move_points) (hq : pf.queue = [])
    (hfill : fill_map core state unit pf = some pf2) :
    ∀ pos : MapPos, pf2.map.is_inboard pos →
      (pf2.map.tile pos).cost.n = 30000 ∨
      (pf2.map.tile pos).cost.n ≤ unit.move_points := by
  obtain ⟨pf3, hf3, _, _, hwf3, hinv3⟩ := fill_map_spec core state unit hwf hup hmp hq
  rw [hfill] at hf3
  obtain rfl := Option.some.inj hf3
  intro pos hpos
  exact hinv3.budget _ (Map.tile_mem hwf3 hpos)

/-- Claim C2, witness: the statement at the concrete scenario and the
concrete cell (1,0). -/
theorem C2_witness :
    (exFill.map.tile ⟨1, 0⟩).cost.n = 30000 ∨
    (exFill.map.tile ⟨1, 0⟩).cost.n ≤ exUnit.move_points :=
  @C2_budget_respect exCore exState exUnit exPf0 exFill (by rfl) (by decide)
    (by decide) rfl rfl ⟨1, 0⟩ (by decide)

/-- Claim C3: occupied cells other than the traversing unit's own origin
keep the sentinel cost after a fill pass; the origin itself is set to
cost 0. -/
theorem C3_occupancy_exclusion (core : Core) (state : GameState) (unit : Unit)
    {pf pf2 : Pathfinder}
    (hwf : pf.map.wf) (hup : pf.map.is_inboard unit.pos)
    (hmp : 0 ≤ unit.move_points) (hq : pf.queue = [])
    (hfill : fill_map core state unit pf = some pf2) :
    (∀ pos : MapPos, pf2.map.is_inboard pos → pos ≠ unit.pos →
      state.units_at pos ≠ [] → (pf2.map.tile pos).cost.n = 30000) ∧
    (pf2.map.tile unit.pos).cost.n = 0 := by
  obtain ⟨pf3, hf3, _, _, _, hinv3⟩ := fill_map_spec core state unit hwf hup hmp hq
  rw [hfill] at hf3
  obtain rfl := Option.some.inj hf3
  exact ⟨hinv3.occupied, hinv3.origin⟩

/-- Claim C3, witness: at the occupied-grid scenario, the occupied cell
(1,0) keeps the sentinel cost and the origin is at cost 0. -/
theorem C3_witness :
    (exFillOcc.map.tile ⟨1, 0⟩).cost.n = 30000 ∧
    (exFillOcc.map.tile exUnit.pos).cost.n = 0 :=
  ⟨(@C3_occupancy_exclusion exCore exStateOcc exUnit exPf0 exFillOcc (by rfl)
      (by decide) (by decide) rfl rfl).1 ⟨1, 0⟩ (by decide) (by decide) (by decide),
   (@C3_occupancy_exclusion exCore exStateOcc exUnit exPf0 exFillOcc (by rfl)
      (by decide) (by decide) rfl rfl).2⟩

/-- Claim C4: a fill pass terminates — and never hits a panic on the way,
returning with the work queue emptied — on every input whose tile array
matches its declared size and whose unit stands on the board (the
preconditions every pathfinder produced by `Pathfinder::new` and every
on-map unit satisfy; an off-board unit makes the source panic at the
in-board assertion instead, modelled as `none`). -/
theorem C4_fill_terminates (core : Core) (state : GameState) (unit : Unit)
    {pf : Pathfinder} (hwf : pf.map.wf) (hup : pf.map.is_inboard unit.pos)
    (hq : pf.queue = []) :
    ∃ pf2, fill_map core state unit pf = some pf2 ∧ pf2.queue = [] := by
  obtain ⟨pf2, h1, h2, _, _⟩ := fill_map_total core state unit hwf hup hq
  exact ⟨pf2, h1, h2⟩

/-- Claim C4, witness: the statement at the concrete scenario. -/
theorem C4_witness :
    ∃ pf2, fill_map exCore exState exUnit exPf0 = some pf2 ∧ pf2.queue = [] :=
  @C4_fill_terminates exCore exState exUnit exPf0 (by rfl) (by decide) rfl

/-- Claim C5: on a fixed grid snapshot, unit and budget, the fill pass and
every subsequent path query are independent of the pathfinder's prior
scratch state — any two same-sized pathfinders with empty queues yield
identical results, because `clean_map` resets every tile. -/
theorem C5_determinism (core : Core) (state : GameState) (unit : Unit)
    {pf1 pf2 : Pathfinder}
    (hsz : pf1.map.size = pf2.map.size)
    (hlen : pf1.map.tiles.length = pf2.map.tiles.length)
    (hq1 : pf1.queue = []) (hq2 : pf2.queue = []) :
    fill_map core state unit pf1 = fill_map core state unit pf2 ∧
    ∀ dest : MapPos,
      (fill_map core state unit pf1).bind (fun p => get_path p dest)
        = (fill_map core state unit pf2).bind (fun p => get_path p dest) := by
  have h := fill_map_congr core state unit hsz hlen hq1 hq2
  exact ⟨h, fun dest => by rw [h]⟩

/-- Claim C5, witness: a fresh pathfinder and one holding stale scratch
data give identical fills, and identical paths to the concrete cell (1,0). -/
theorem C5_witness :
    fill_map exCore exState exUnit exPf0 = fill_map exCore exState exUnit exPfJunk ∧
    (fill_map exCore exState exUnit exPf0).bind (fun p => get_path p ⟨1, 0⟩)
      = (fill_map exCore exState exUnit exPfJunk).bind (fun p => get_path p ⟨1, 0⟩) :=
  ⟨(@C5_determinism exCore exState exUnit exPf0 exPfJunk rfl rfl rfl rfl).1,
   (@C5_determinism exCore exState exUnit exPf0 exPfJunk rfl rfl rfl rfl).2 ⟨1, 0⟩⟩

/-- Claim C6: every returned path is a chain of hex-adjacent positions
that starts at the unit's origin — the cell whose recorded cost is 0 —
and ends at the queried destination. -/
theorem C6_path_validity (core : Core) (state : GameState) (unit : Unit)
    {pf pf2 : Pathfinder}
    (hwf : pf.map.wf) (hup : pf.map.is_inboard unit.pos)
    (hmp : 0 ≤ unit.move_points) (hq : pf.queue = [])
    (hfill : fill_map core state unit pf = some pf2)
    {dest : MapPos} (hdest : pf2.map.is_inboard dest)
    (hreach : (pf2.map.tile dest).cost.n ≠ 30000) :
    (pf2.map.tile unit.pos).cost.n = 0 ∧
    ∃ mp : MapPath, get_path pf2 dest = some mp ∧
      List.Chain' adjacent (mp.nodes.map Prod.snd) ∧
      (mp.nodes.map Prod.snd).head? = some unit.pos ∧
      (mp.nodes.map Prod.snd).getLast? = some dest := by
  obtain ⟨pf3, hf3, _, _, hwf3, hinv3⟩ := fill_map_spec core state unit hwf hup hmp hq
  rw [hfill] at hf3
  obtain rfl := Option.some.inj hf3
  have hle := hinv3.le_sentinel _ (Map.tile_mem hwf3 hdest)
  obtain ⟨mp, h1, _, h3, h4, h5, _⟩ :=
    get_path_spec core state unit hwf3 hinv3 hdest (lt_of_le_of_ne hle hreach)
  exact ⟨hinv3.origin, mp, h1, h5, h3, h4⟩

/-- Claim C6, witness: the statement at the concrete scenario. -/
theorem C6_witness :
    (exFill.map.tile exUnit.pos).cost.n = 0 ∧
    ∃ mp : MapPath, get_path exFill ⟨1, 0⟩ = some mp ∧
      List.Chain' adjacent (mp.nodes.map Prod.snd) ∧
      (mp.nodes.map Prod.snd).head? = some exUnit.pos ∧
      (mp.nodes.map Prod.snd).getLast? = some ⟨1, 0⟩ :=
  @C6_path_validity exCore exState exUnit exPf0 exFill (by rfl) (by decide)
    (by decide) rfl rfl ⟨1, 0⟩ (by decide) (by decide)

/-- Claim C7: `get_path` fails — the walk hits the parent `unwrap` or the
in-board assertion, modelled as `none` — on a destination the fill pass
never reached (sentinel cost) or on an out-of-board position; it never
returns a default path. -/
theorem C7_unreached_fails (core : Core) (state : GameState) (unit : Unit)
    {pf pf2 : Pathfinder}
    (hwf : pf.map.wf) (hup : pf.map.is_inboard unit.pos)
    (hmp : 0 ≤ unit.move_points) (hq : pf.queue = [])
    (hfill : fill_map core state unit pf = some pf2) (dest : MapPos) :
    (¬ pf2.map.is_inboard dest → get_path pf2 dest = none) ∧
    (pf2.map.is_inboard dest → (pf2.map.tile dest).cost.n = 30000 →
      get_path pf2 dest = none) := by
  obtain ⟨pf3, hf3, _, _, hwf3, hinv3⟩ := fill_map_spec core state unit hwf hup hmp hq
  rw [hfill] at hf3
  obtain rfl := Option.some.inj hf3
  exact ⟨fun h => get_path_outboard h,
    fun h1 h2 => get_path_unreached core state unit hwf3 hinv3 h1 h2⟩

/-- Claim C7, witness: with one move point, the Trees cell keeps the
sentinel cost and `get_path` fails on it. -/
theorem C7_witness : get_path exFillPoor ⟨1, 0⟩ = none :=
  (@C7_unreached_fails exCore exState exUnitPoor exPf0 exFillPoor (by rfl)
    (by decide) (by decide) rfl rfl ⟨1, 0⟩).2 (by decide) (by decide)

/-- Claim C8: every class/terrain cost is at least 1; a relaxation records
the source cell's cost plus the terrain cost of the entered cell; and in
the final map the recorded cost strictly increases along every parent
pointer (by at least the entered cell's cost). -/
theorem C8_edge_cost_monotone (core : Core) (state : GameState) (unit : Unit)
    {pf pf2 : Pathfinder}
    (hwf : pf.map.wf) (hup : pf.map.is_inboard unit.pos)
    (hmp : 0 ≤ unit.move_points) (hq : pf.queue = [])
    (hfill : fill_map core state unit pf = some pf2) :
    (∀ pos : MapPos, 1 ≤ tile_cost core state unit pos) ∧
    (∀ (o n : MapPos) (p : Pathfinder), p.map.wf → p.map.is_inboard n →
      ((p.map.tile n).cost.n > (p.map.tile o).cost.n + tile_cost core state unit n ∧
        (state.units_at n).length = 0 ∧
        (p.map.tile o).cost.n + tile_cost core state unit n ≤ unit.move_points) →
      ((process_neighbour_pos core state unit o n p).map.tile n).cost.n
        = (p.map.tile o).cost.n + tile_cost core state unit n) ∧
    (∀ pos : MapPos, pf2.map.is_inboard pos →
      0 < (pf2.map.tile pos).cost.n → (pf2.map.tile pos).cost.n < 30000 →
      ∃ d : Dir, (pf2.map.tile pos).parent = some d ∧
        (pf2.map.tile (Dir.get_neighbour_pos pos d)).cost.n
            + tile_cost core state unit pos
          ≤ (pf2.map.tile pos).cost.n ∧
        (pf2.map.tile (Dir.get_neighbour_pos pos d)).cost.n
          < (pf2.map.tile pos).cost.n) := by
  obtain ⟨pf3, hf3, _, _, _, hinv3⟩ := fill_map_spec core state unit hwf hup hmp hq
  rw [hfill] at hf3
  obtain rfl := Option.some.inj hf3
  refine ⟨tile_cost_pos core state unit, ?_, ?_⟩
  · intro o n p hpwf hpn hcond
    simp only [process_neighbour_pos]
    rw [if_pos hcond]
    show ((p.map.set_tile n _).tile n).cost.n = _
    rw [Map.tile_set_self (tileIdx_toNat_lt hpwf hpn)]
  · intro pos hpos hc0 hc30
    obtain ⟨d, hpar, _, hle⟩ := hinv3.chain pos hpos hc0 hc30
    have := tile_cost_pos core state unit pos
    exact ⟨d, hpar, hle, by linarith⟩

/-- Claim C8, witness: at the concrete scenario, the Trees cell costs at
least 1 to enter and its parent pointer leads to a strictly cheaper cell. -/
theorem C8_witness :
    1 ≤ tile_cost exCore exState exUnit ⟨1, 0⟩ ∧
    ∃ d : Dir, (exFill.map.tile ⟨1, 0⟩).parent = some d ∧
      (exFill.map.tile (Dir.get_neighbour_pos ⟨1, 0⟩ d)).cost.n
          + tile_cost exCore exState exUnit ⟨1, 0⟩
        ≤ (exFill.map.tile ⟨1, 0⟩).cost.n ∧
      (exFill.map.tile (Dir.get_neighbour_pos ⟨1, 0⟩ d)).cost.n
        < (exFill.map.tile ⟨1, 0⟩).cost.n :=
  ⟨(@C8_edge_cost_monotone exCore exState exUnit exPf0 exFill (by rfl) (by decide)
      (by decide) rfl rfl).1 ⟨1, 0⟩,
   (@C8_edge_cost_monotone exCore exState exUnit exPf0 exFill (by rfl) (by decide)
      (by decide) rfl rfl).2.2 ⟨1, 0⟩ (by decide) (by decide) (by decide)⟩

/-- Claim C9: each of the ten command variant tags also names an event
variant, every event variant tag is a command tag or one of the six
engine-derived tags, each of the six engine-derived tags names an event
variant, and no command bears an engine-derived tag. -/
theorem C9_event_superset :
    (∀ c : event.Command, c.name ∈ event.commandNames) ∧
    (∀ c : event.Command, ∃ e : event.Event, e.name = c.name) ∧
    (∀ e : event.Event,
      e.name ∈ event.commandNames ∨ e.name ∈ event.engineEventNames) ∧
    ((∃ e : event.Event, e.name = "Reveal") ∧
     (∃ e : event.Event, e.name = "ShowUnit") ∧
     (∃ e : event.Event, e.name = "HideUnit") ∧
     (∃ e : event.Event, e.name = "SectorOwnerChanged") ∧
     (∃ e : event.Event, e.name = "VictoryPoint") ∧
     (∃ e : event.Event, e.name = "RemoveSmoke")) ∧
    (∀ c : event.Command, c.name ∉ event.engineEventNames) ∧
    event.commandNames.Nodup ∧ event.engineEventNames.Nodup ∧
    (∀ s ∈ event.engineEventNames, s ∉ event.commandNames) := by
  refine ⟨?_, ?_, ?_, ?_, ?_, ?_, ?_, ?_⟩
  · intro c; cases c <;> simp only [event.Command.name] <;> decide
  · intro c
    cases c with
    | Move _ _ _ =>
      exact ⟨event.Event.Move ⟨0⟩ exExactPos exExactPos event.MoveMode.Fast ⟨0⟩, rfl⟩
    | EndTurn => exact ⟨event.Event.EndTurn ⟨0⟩ ⟨1⟩, rfl⟩
    | CreateUnit _ _ => exact ⟨event.Event.CreateUnit exEventUnit, rfl⟩
    | AttackUnit _ _ => exact ⟨event.Event.AttackUnit exAttackInfo, rfl⟩
    | LoadUnit _ _ =>
      exact ⟨event.Event.LoadUnit none ⟨0⟩ exExactPos exExactPos, rfl⟩
    | UnloadUnit _ _ _ =>
      exact ⟨event.Event.UnloadUnit exEventUnit none exExactPos exExactPos, rfl⟩
    | Attach _ _ =>
      exact ⟨event.Event.Attach ⟨0⟩ ⟨1⟩ exExactPos exExactPos, rfl⟩
    | Detach _ _ => exact ⟨event.Event.Detach ⟨0⟩ exExactPos exExactPos, rfl⟩
    | SetReactionFireMode _ _ =>
      exact ⟨event.Event.SetReactionFireMode ⟨0⟩ event.ReactionFireMode.Normal, rfl⟩
    | Smoke _ _ => exact ⟨event.Event.Smoke ⟨0⟩ ⟨0, 0⟩ none, rfl⟩
  · intro e; cases e <;> simp only [event.Event.name] <;> decide
  · exact ⟨⟨event.Event.Reveal exEventUnit, rfl⟩,
      ⟨event.Event.ShowUnit exEventUnit, rfl⟩,
      ⟨event.Event.HideUnit ⟨0⟩, rfl⟩,
      ⟨event.Event.SectorOwnerChanged ⟨0⟩ none, rfl⟩,
      ⟨event.Event.VictoryPoint ⟨0⟩ ⟨0, 0⟩ 0, rfl⟩,
      ⟨event.Event.RemoveSmoke ⟨0⟩, rfl⟩⟩
  · intro c; cases c <;> simp only [event.Command.name] <;> decide
  · decide
  · decide
  · decide

/-- Claim C9, witness: the superset direction applied at one concrete
command variant. -/
theorem C9_witness : ∃ e : event.Event, e.name = event.Command.EndTurn.name :=
  C9_event_superset.2.1 event.Command.EndTurn

/-- Claim C10: starting from `Pathfinder::new`, every sequence of fill
passes whose units stand on the board succeeds with no panic — each pass
empties the work queue, so the entry assertion `queue.len() == 0` of the
next pass never fires (for an off-board unit the source instead panics at
the in-board assertion inside the same pass, modelled as `none`). -/
theorem C10_queue_empty_assert (map_size : Size2) (calls : List FillCall)
    (hin : ∀ c ∈ calls, (Pathfinder.new map_size).map.is_inboard c.unit.pos) :
    ∃ pf2, run_fills calls (some (Pathfinder.new map_size)) = some pf2 ∧
      pf2.queue = [] := by
  obtain ⟨pf2, h1, h2, _, _⟩ :=
    run_fills_total calls (Pathfinder.new map_size) (new_wf map_size) rfl hin
  exact ⟨pf2, h1, h2⟩

/-- Claim C10, witness: a concrete two-pass sequence on the 2×1 grid. -/
theorem C10_witness :
    ∃ pf2, run_fills [⟨exCore, exState, exUnit⟩, ⟨exCore, exStateOcc, exUnitPoor⟩]
        (some (Pathfinder.new ⟨2, 1⟩)) = some pf2 ∧ pf2.queue = [] :=
  C10_queue_empty_assert ⟨2, 1⟩
    [⟨exCore, exState, exUnit⟩, ⟨exCore, exStateOcc, exUnitPoor⟩] (by decide)

end Zoc
